import Mathlib

/-!
Verification of the GPU NIP-13 miner core against its natural-language
specification.  The definitions below are shallow embeddings of the
OpenCL kernel code and the Go host code of the repository: byte buffers
are `List Nat` (each element a byte value), 32-bit words are `Nat`
reduced modulo `2^32` wherever the source's `uint` arithmetic wraps, and
64-bit values are `Nat` reduced modulo `2^64` wherever `ulong` wraps.
-/

set_option maxRecDepth 8192

namespace Nip13

/-- Constant `2^32`, the modulus of the kernel's `uint` arithmetic. -/
def u32 : Nat := 4294967296

/-- Constant `2^64`, the modulus of the kernel's `ulong` arithmetic. -/
def u64 : Nat := 18446744073709551616

/-- Macro `ROTRIGHT(a,b)` from the kernel: `((a) >> (b)) | ((a) << (32-(b)))` on `uint`. -/
def rotright (a b : Nat) : Nat := (a >>> b) ||| ((a <<< (32 - b)) % u32)

/-- Bitwise complement on a 32-bit word (`~x` on `uint`). -/
def not32 (x : Nat) : Nat := x ^^^ 4294967295

/-- Macro `CH(x,y,z)` from the kernel. -/
def chf (x y z : Nat) : Nat := (x &&& y) ^^^ (not32 x &&& z)

/-- Macro `MAJ(x,y,z)` from the kernel. -/
def majf (x y z : Nat) : Nat := (x &&& y) ^^^ (x &&& z) ^^^ (y &&& z)

/-- Macro `EP0(x)` from the kernel. -/
def ep0 (x : Nat) : Nat := rotright x 2 ^^^ rotright x 13 ^^^ rotright x 22

/-- Macro `EP1(x)` from the kernel. -/
def ep1 (x : Nat) : Nat := rotright x 6 ^^^ rotright x 11 ^^^ rotright x 25

/-- Macro `SIG0(x)` from the kernel. -/
def sig0 (x : Nat) : Nat := rotright x 7 ^^^ rotright x 18 ^^^ (x >>> 3)

/-- Macro `SIG1(x)` from the kernel. -/
def sig1 (x : Nat) : Nat := rotright x 17 ^^^ rotright x 19 ^^^ (x >>> 10)

/-- The 64 SHA-256 round constants `k` from the kernel source. -/
def kconst : List Nat :=
  [0x428a2f98, 0x71374491, 0xb5c0fbcf, 0xe9b5dba5,
   0x3956c25b, 0x59f111f1, 0x923f82a4, 0xab1c5ed5] ++
  [0xd807aa98, 0x12835b01, 0x243185be, 0x550c7dc3,
   0x72be5d74, 0x80deb1fe, 0x9bdc06a7, 0xc19bf174] ++
  [0xe49b69c1, 0xefbe4786, 0x0fc19dc6, 0x240ca1cc,
   0x2de92c6f, 0x4a7484aa, 0x5cb0a9dc, 0x76f988da] ++
  [0x983e5152, 0xa831c66d, 0xb00327c8, 0xbf597fc7,
   0xc6e00bf3, 0xd5a79147, 0x06ca6351, 0x14292967] ++
  [0x27b70a85, 0x2e1b2138, 0x4d2c6dfc, 0x53380d13,
   0x650a7354, 0x766a0abb, 0x81c2c92e, 0x92722c85] ++
  [0xa2bfe8a1, 0xa81a664b, 0xc24b8b70, 0xc76c51a3,
   0xd192e819, 0xd6990624, 0xf40e3585, 0x106aa070] ++
  [0x19a4c116, 0x1e376c08, 0x2748774c, 0x34b0bcb5,
   0x391c0cb3, 0x4ed8aa4a, 0x5b9cca4f, 0x682e6ff3] ++
  [0x748f82ee, 0x78a5636f, 0x84c87814, 0x8cc70208,
   0x90befffa, 0xa4506ceb, 0xbef9a3f7, 0xc67178f2]

/-- The 8-word SHA-256 running state `uint h[8]` of the kernel. -/
structure Hash8 where
  h0 : Nat
  h1 : Nat
  h2 : Nat
  h3 : Nat
  h4 : Nat
  h5 : Nat
  h6 : Nat
  h7 : Nat
deriving DecidableEq, Repr

/-- The fixed SHA-256 initial vector from the kernel source. -/
def initH : Hash8 :=
  ⟨0x6a09e667, 0xbb67ae85, 0x3c6ef372, 0xa54ff53a,
   0x510e527f, 0x9b05688c, 0x1f83d9ab, 0x5be0cd19⟩

/-- Big-endian load of the 16 message words from a 64-byte block
(`w[i] = block[4i] << 24 | block[4i+1] << 16 | block[4i+2] << 8 | block[4i+3]`). -/
def bytesToWords : List Nat → List Nat
  | y0 :: y1 :: y2 :: y3 :: rest =>
      ((y0 <<< 24) ||| (y1 <<< 16) ||| (y2 <<< 8) ||| y3) :: bytesToWords rest
  | _ => []

/-- One step of the message-schedule extension
(`w[i] = SIG1(w[i-2]) + w[i-7] + SIG0(w[i-15]) + w[i-16]` on `uint`),
operating on the reversed prefix of the schedule (head = most recent word). -/
def schedStep (wrev : List Nat) : List Nat :=
  ((sig1 (wrev.getD 1 0) + wrev.getD 6 0 + sig0 (wrev.getD 14 0) + wrev.getD 15 0) % u32)
    :: wrev

/-- The full 64-word message schedule: the 16 loaded words extended 48 times. -/
def schedule (w16 : List Nat) : List Nat := (schedStep^[48] w16.reverse).reverse

/-- One round of the compression main loop, over the working variables
`a..h` (represented as a `Hash8`) and the pair `(k[i], w[i])`. -/
def roundStep (s : Hash8) (kw : Nat × Nat) : Hash8 :=
  let t1 := (s.h7 + ep1 s.h4 + chf s.h4 s.h5 s.h6 + kw.1 + kw.2) % u32
  let t2 := (ep0 s.h0 + majf s.h0 s.h1 s.h2) % u32
  ⟨(t1 + t2) % u32, s.h0, s.h1, s.h2, (s.h3 + t1) % u32, s.h4, s.h5, s.h6⟩

/-- Function `process_block` from the kernel source: load the block big-endian,
extend the schedule, run 64 rounds, add the result into the running state
(all additions modulo `2^32`). -/
def process_block (h : Hash8) (block : List Nat) : Hash8 :=
  let w := schedule (bytesToWords block)
  let s := (kconst.zip w).foldl roundStep h
  ⟨(h.h0 + s.h0) % u32, (h.h1 + s.h1) % u32, (h.h2 + s.h2) % u32, (h.h3 + s.h3) % u32,
   (h.h4 + s.h4) % u32, (h.h5 + s.h5) % u32, (h.h6 + s.h6) % u32, (h.h7 + s.h7) % u32⟩

/-- The 8 length-suffix bytes written by the padding code:
`block[56+i] = (bit_length >> (56 - 8*i)) & 0xff` for `i = 0..7`. -/
def len8 (bitLen : Nat) : List Nat :=
  (List.range 8).map fun i => (bitLen >>> (56 - 8 * i)) &&& 255

/-- The loop over complete 64-byte blocks in `sha256_generic`:
process `nc` consecutive 64-byte slices of the input. -/
def processBlocks (h : Hash8) (input : List Nat) : Nat → Hash8
  | 0 => h
  | nc + 1 => processBlocks (process_block h (input.take 64)) (input.drop 64) nc

/-- Big-endian serialization of one 32-bit state word into 4 output bytes. -/
def wordBytes (x : Nat) : List Nat :=
  [(x >>> 24) &&& 255, (x >>> 16) &&& 255, (x >>> 8) &&& 255, x &&& 255]

/-- The final output write of `sha256_generic`: the 8 state words, big-endian. -/
def hashToBytes (h : Hash8) : List Nat :=
  wordBytes h.h0 ++ wordBytes h.h1 ++ wordBytes h.h2 ++ wordBytes h.h3 ++
  wordBytes h.h4 ++ wordBytes h.h5 ++ wordBytes h.h6 ++ wordBytes h.h7

/-- Function `sha256_generic` from the default kernel source (part_000 lines 99-163):
process all complete 64-byte blocks, then build the final padded block
(`0x80`, zero fill, 64-bit big-endian bit length), emitting one extra
block when the remainder does not leave room for the length field. -/
def sha256_generic (input : List Nat) : List Nat :=
  let n := input.length
  let nc := n / 64
  let r := n % 64
  let bitLen := n * 8
  let h1 := processBlocks initH input nc
  let tail := input.drop (64 * nc)
  let h2 :=
    if r < 56 then
      process_block h1 (tail ++ 128 :: (List.replicate (55 - r) 0 ++ len8 bitLen))
    else
      process_block (process_block h1 (tail ++ 128 :: List.replicate (63 - r) 0))
        (List.replicate 56 0 ++ len8 bitLen)
  hashToBytes h2

/-- The inner bit loop of `count_leading_zero_bits` on one byte: scan bit
positions `j = 7, 6, ..., 0`, counting until the first set bit. -/
def clzByteGo (b : Nat) : Nat → Nat
  | 0 => 0
  | j + 1 => if (b >>> j) &&& 1 = 1 then 0 else 1 + clzByteGo b j

/-- Leading-zero-bit count of a single byte, most-significant bit first. -/
def clzByte (b : Nat) : Nat := clzByteGo b 8

/-- Function `count_leading_zero_bits` from the kernel source (part_000 lines 166-184,
identical in part_003 lines 54-71): a zero byte contributes 8 and the scan
continues; the first non-zero byte contributes its own leading-zero count
and the scan stops. -/
def count_leading_zero_bits : List Nat → Nat
  | [] => 0
  | b :: rest => if b = 0 then 8 + count_leading_zero_bits rest else clzByte b

/-- Function `int_to_ascii` from the kernel source: render `n` as exactly
`num_digits` decimal ASCII digits, generated right to left by repeated
divide/mod by 10 (`str[i] = '0' + n % 10; n /= 10`). -/
def int_to_ascii (n : Nat) : Nat → List Nat
  | 0 => []
  | d + 1 => int_to_ascii (n / 10) d ++ [48 + n % 10]

/-- The nonce-substitution loop of `mine_nonce`:
`for i < ds.length: buf[off + i] = ds[i]`, expressed with `List.set`. -/
def writeBytes (buf : List Nat) (off : Nat) : List Nat → List Nat
  | [] => buf
  | d :: ds => writeBytes (buf.set off d) (off + 1) ds

/-- The `max_nonce` accumulation loop of `mine_nonce`:
`max_nonce = 1; for i < d: max_nonce *= 10;` on `ulong` (wraps mod `2^64`). -/
def maxNonceLoop (d : Nat) : Nat :=
  (List.range d).foldl (fun m _ => m * 10 % u64) 1

/-- Kernel `mine_nonce` from the default kernel source (part_000 lines 186-260),
as the pure per-lane function: `none` is the "not found" flag write and
`some (nonce, hash)` is the found record (nonce plus 32-byte event id).
The lane's working buffer is the `serialized_length`-byte copy of the base
buffer with the nonce digits substituted at `nonce_offset`. -/
def mine_nonce (base_serialized : List Nat) (serialized_length nonce_offset difficulty : Nat)
    (base_nonce global_id num_digits : Nat) : Option (Nat × List Nat) :=
  let nonce := (base_nonce + global_id) % u64
  let max_nonce := (maxNonceLoop num_digits + (u64 - 1)) % u64
  if max_nonce < nonce then none
  else if 2048 < serialized_length then none
  else if 22 < num_digits then none
  else
    let scopy := writeBytes (base_serialized.take serialized_length) nonce_offset
      (int_to_ascii nonce num_digits)
    let hash := sha256_generic scopy
    if difficulty ≤ count_leading_zero_bits hash then some (nonce, hash) else none

/-! ### The poclbm-adapted kernel variant (part_003) -/

/-- Builtin `rotate(x,n)` (rotate left) as used by the poclbm-adapted kernel. -/
def rotlP (x n : Nat) : Nat := ((x <<< n) % u32) ||| (x >>> (32 - n))

/-- Macro `Ch(x,y,z) = bitselect(z,y,x)` from the poclbm-adapted kernel:
bit-wise `x ? y : z`. -/
def chP (x y z : Nat) : Nat := (z &&& not32 x) ||| (y &&& x)

/-- Macro `Maj(x,y,z) = Ch(x^z, y, z)` from the poclbm-adapted kernel. -/
def majP (x y z : Nat) : Nat := chP (x ^^^ z) y z

/-- Macro `Tr2(x)` from the poclbm-adapted kernel. -/
def tr2 (x : Nat) : Nat := rotlP x 30 ^^^ rotlP x 19 ^^^ rotlP x 10

/-- Macro `Tr1(x)` from the poclbm-adapted kernel. -/
def tr1 (x : Nat) : Nat := rotlP x 26 ^^^ rotlP x 21 ^^^ rotlP x 7

/-- Macro `Wr2(x)` from the poclbm-adapted kernel. -/
def wr2 (x : Nat) : Nat := rotlP x 25 ^^^ rotlP x 14 ^^^ (x >>> 3)

/-- Macro `Wr1(x)` from the poclbm-adapted kernel. -/
def wr1 (x : Nat) : Nat := rotlP x 15 ^^^ rotlP x 13 ^^^ (x >>> 10)

/-- One message-schedule extension step of the poclbm-adapted kernel
(`w[i] = Wr1(w[i-2]) + w[i-7] + Wr2(w[i-15]) + w[i-16]`), on the reversed
schedule prefix. -/
def schedStepP (wrev : List Nat) : List Nat :=
  ((wr1 (wrev.getD 1 0) + wrev.getD 6 0 + wr2 (wrev.getD 14 0) + wrev.getD 15 0) % u32)
    :: wrev

/-- The poclbm-adapted kernel's 64-word message schedule. -/
def scheduleP (w16 : List Nat) : List Nat := (schedStepP^[48] w16.reverse).reverse

/-- One round of the poclbm-adapted compression main loop. -/
def roundStepP (s : Hash8) (kw : Nat × Nat) : Hash8 :=
  let t1 := (s.h7 + tr1 s.h4 + chP s.h4 s.h5 s.h6 + kw.1 + kw.2) % u32
  let t2 := (tr2 s.h0 + majP s.h0 s.h1 s.h2) % u32
  ⟨(t1 + t2) % u32, s.h0, s.h1, s.h2, (s.h3 + t1) % u32, s.h4, s.h5, s.h6⟩

/-- Function `sha256_block_bfgminer_poclbm` from part_003 lines 75-128. -/
def sha256_block_poclbm (h : Hash8) (block : List Nat) : Hash8 :=
  let w := scheduleP (bytesToWords block)
  let s := (kconst.zip w).foldl roundStepP h
  ⟨(h.h0 + s.h0) % u32, (h.h1 + s.h1) % u32, (h.h2 + s.h2) % u32, (h.h3 + s.h3) % u32,
   (h.h4 + s.h4) % u32, (h.h5 + s.h5) % u32, (h.h6 + s.h6) % u32, (h.h7 + s.h7) % u32⟩

/-- The block loop of the poclbm-adapted `sha256_generic`: process `nb`
consecutive 64-byte slices of the padded buffer. -/
def processBlocksP (h : Hash8) (input : List Nat) : Nat → Hash8
  | 0 => h
  | nb + 1 => processBlocksP (sha256_block_poclbm h (input.take 64)) (input.drop 64) nb

/-- Function `sha256_generic` from the poclbm-adapted kernel (part_003 lines 131-184):
computes the block count as `(input_length + 9) / 64 + 1`, builds one padded
buffer (`0x80`, zero fill, 8-byte big-endian bit length at the very end),
and returns the all-zero hash if the padded buffer exceeds 2048 bytes. -/
def sha256_poclbm (input : List Nat) : List Nat :=
  let n := input.length
  let num_blocks := (n + 9) / 64 + 1
  let total := num_blocks * 64
  if 2048 < total then List.replicate 32 0
  else
    let padded := input ++ 128 :: (List.replicate (total - 8 - (n + 1)) 0 ++ len8 (n * 8))
    hashToBytes (processBlocksP initH padded num_blocks)

/-- The `(uint)` cast the kernel applies to a signed 32-bit argument:
reinterpret the two's-complement value modulo `2^32`. -/
def uintOfInt32 (x : Int) : Nat := (x % (2 ^ 32 : Int)).toNat

/-- The `int32(...)` conversion the host applies to a `uint32` half before
passing it as a kernel argument (two's-complement reinterpretation). -/
def int32OfUint32 (x : Nat) : Int :=
  if x < 2 ^ 31 then (x : Int) else (x : Int) - 2 ^ 32

/-- Host side, part_000 lines 2802-2813: `baseNonceLow := uint32(currentNonce & 0xFFFFFFFF)`
passed as `int32`. -/
def splitLow (v : Nat) : Int := int32OfUint32 (v &&& 0xFFFFFFFF)

/-- Host side, part_000 lines 2802-2813: `baseNonceHigh := uint32((currentNonce >> 32) & 0xFFFFFFFF)`
passed as `int32`. -/
def splitHigh (v : Nat) : Int := int32OfUint32 ((v >>> 32) &&& 0xFFFFFFFF)

/-- Kernel side, part_003 line 199:
`base_nonce = ((ulong)(uint)base_nonce_high << 32) | ((ulong)(uint)base_nonce_low)`. -/
def reconstructBase (lo hi : Int) : Nat := (uintOfInt32 hi <<< 32) ||| uintOfInt32 lo

/-- Kernel `mine_nonce` from the poclbm-adapted kernel (part_003 lines 186-255):
the compact result convention writes `-1` for "not found" and the lane's
`global_id` for "found". -/
def mine_nonce_poclbm (base_serialized : List Nat)
    (serialized_length nonce_offset difficulty : Nat)
    (base_nonce_low base_nonce_high : Int) (global_id num_digits : Nat) : Int :=
  let base_nonce := reconstructBase base_nonce_low base_nonce_high
  let nonce := (base_nonce + global_id) % u64
  let max_nonce :=
    if num_digits ≤ 19 then (maxNonceLoop num_digits + (u64 - 1)) % u64 else u64 - 1
  if max_nonce < nonce then -1
  else if 2048 < serialized_length then -1
  else if 22 < num_digits then -1
  else
    let scopy := writeBytes (base_serialized.take serialized_length) nonce_offset
      (int_to_ascii nonce num_digits)
    let hash := sha256_poclbm scopy
    if difficulty ≤ count_leading_zero_bits hash then (global_id : Int) else -1

/-! ### The block sequence of the default kernel's padder, and the
reference (flat Merkle-Damgard) padding it must agree with -/

/-- The first `nc` consecutive 64-byte slices of a buffer. -/
def takeChunks (input : List Nat) : Nat → List (List Nat)
  | 0 => []
  | nc + 1 => input.take 64 :: takeChunks (input.drop 64) nc

/-- The ordered sequence of 64-byte blocks that `sha256_generic`
(default kernel) feeds to `process_block`: all complete input blocks,
then the padded final block, with one extra block when the remainder
leaves no room for the 8-byte length field. -/
def padBlocks (input : List Nat) : List (List Nat) :=
  let n := input.length
  let nc := n / 64
  let r := n % 64
  let bitLen := n * 8
  let tail := input.drop (64 * nc)
  takeChunks input nc ++
    (if r < 56 then [tail ++ 128 :: (List.replicate (55 - r) 0 ++ len8 bitLen)]
     else [tail ++ 128 :: List.replicate (63 - r) 0, List.replicate 56 0 ++ len8 bitLen])

/-- Split a byte list into consecutive 64-byte chunks. -/
def chunks64 (l : List Nat) : List (List Nat) :=
  if h : l = [] then [] else l.take 64 :: chunks64 (l.drop 64)
termination_by l.length
decreasing_by
  simp only [List.length_drop]
  exact Nat.sub_lt (List.length_pos.mpr h) (by omega)

/-- Reference Merkle-Damgard padding, stated flat: the message, one `0x80`
byte, the unique zero fill making the total length a multiple of 64, and
the 8-byte big-endian bit length. -/
def padSpec (input : List Nat) : List Nat :=
  input ++ 128 :: (List.replicate ((119 - input.length % 64) % 64) 0 ++
    len8 (input.length * 8))

/-- Reference SHA-256: fold the compression primitive over the 64-byte
chunks of the flat-padded message from the initial vector, and serialize
the final state big-endian per word. -/
def sha256spec (input : List Nat) : List Nat :=
  hashToBytes ((chunks64 (padSpec input)).foldl process_block initH)

/-! ### Host-side validation and harvest loop (part_000, third document) -/

/-- Decimal digits of `n`, most significant first, with a structural fuel
argument (`n / 10` strictly decreases, so fuel `n + 1` always suffices). -/
def decDigitsFuel (n : Nat) : Nat → List Nat
  | 0 => []
  | fuel + 1 => if n < 10 then [n] else decDigitsFuel (n / 10) fuel ++ [n % 10]

/-- Decimal digit list of `n`, most significant first. -/
def decimalDigits (n : Nat) : List Nat := decDigitsFuel n (n + 1)

/-- Go's `fmt.Sprintf("%0*d", w, n)` as a byte list: the decimal rendering
of `n`, left-padded with ASCII zeros to a minimum width of `w`. -/
def goZeroPad (w n : Nat) : List Nat :=
  let ds := (decimalDigits n).map fun d => 48 + d
  if ds.length < w then List.replicate (w - ds.length) 48 ++ ds else ds

/-- Modelled from the spec: the external record-identity collaborator
(`testEvent.GetID()` of the go-nostr library). The spec's record validity
check "recompute(s) canonical ID" as the digest of the canonical
serialization; `ser` is the canonical serialization of the (fixed) record
as a function of the nonce-tag string, supplied by the external
serializer collaborator. -/
def getID (ser : List Nat → List Nat) (nonceStr : List Nat) : List Nat :=
  sha256_generic (ser nonceStr)

/-- Modelled from the spec: `nip13.Difficulty` of the external NIP-13
collaborator, "count of consecutive zero bits starting from the most
significant bit of a digest". -/
def nip13Difficulty (id : List Nat) : Nat := count_leading_zero_bits id

/-- Modelled from the spec: `nip13.Check(id, d)` of the external NIP-13
collaborator succeeds exactly when the id's difficulty meets `d`. -/
def nip13Check (id : List Nat) (d : Nat) : Bool := decide (d ≤ nip13Difficulty id)

/-- Modelled from the spec: `nip13.CommittedDifficulty` on an event whose
single nonce tag commits target `target`: "a declared tag-difficulty
higher than the actual digest difficulty yields ... zero", otherwise the
committed target. -/
def committedDifficulty (id : List Nat) (target : Nat) : Nat :=
  if nip13Difficulty id < target then 0 else target

/-- Function `validateNonce` from part_000 lines 1462-1548: rebuild the nonce tag
with `fmt.Sprintf("%0*d", numDigits, candidateNonce)` and committed target
`difficulty`, recompute the event id on the CPU, and run the NIP-13
check, the explicit actual-difficulty check, and the committed-difficulty
sanity checks in source order. -/
def validateNonce (ser : List Nat → List Nat)
    (candidateNonce difficulty numDigits : Nat) : Bool :=
  let nonceStr := goZeroPad numDigits candidateNonce
  let id := getID ser nonceStr
  if ¬ nip13Check id difficulty then false
  else
    let actual := nip13Difficulty id
    if actual < difficulty then false
    else
      let committed := committedDifficulty id difficulty
      if committed = 0 ∧ difficulty ≤ actual then true
      else if committed ≠ difficulty ∧ committed ≠ 0 then false
      else true

/-- The accept step of the harvest loop (part_000 lines 2849-2886): a
candidate that passes `validateNonce` is accepted with the event id
recomputed on the host (`testEvent.GetID()`, hex-decoded); a failing
candidate is discarded. -/
def harvestAccept (ser : List Nat → List Nat)
    (candidateNonce difficulty numDigits : Nat) : Option (Nat × List Nat) :=
  if validateNonce ser candidateNonce difficulty numDigits then
    some (candidateNonce, getID ser (goZeroPad numDigits candidateNonce))
  else none

/-- The result scan of the harvest loop (part_000 lines 2846-2896): walk
the per-lane `int32` results in lane order; a negative entry is "not
found"; a non-negative entry is a candidate index whose nonce is
`currentNonce + index`; a candidate failing host-side validation is
discarded and the scan continues with the remaining lanes. -/
def scanResults (ser : List Nat → List Nat) (difficulty numDigits currentNonce : Nat) :
    List Int → Option (Nat × List Nat)
  | [] => none
  | idx :: rest =>
      if 0 ≤ idx then
        match harvestAccept ser (currentNonce + idx.toNat) difficulty numDigits with
        | some r => some r
        | none => scanResults ser difficulty numDigits currentNonce rest
      else scanResults ser difficulty numDigits currentNonce rest

/-! ### The batch orchestrator's nonce-range bookkeeping
(part_000 lines 2723-2919) -/

/-- The orchestrator's per-batch state: the current digit-width tier and
the base nonce of the next batch. -/
structure OrchState where
  digits : Nat
  cur : Nat
deriving DecidableEq, Repr

/-- Value `maxNonceValue` of a tier: `10^digits - 1`, the largest value with at
most `digits` decimal digits. -/
def tierMax (w : Nat) : Nat := 10 ^ w - 1

/-- The dispatched lane count of one batch:
`remaining = min(batchSize, maxNonceValue - currentNonce + 1)`. -/
def batchRem (B : Nat) (st : OrchState) : Nat := min B (tierMax st.digits - st.cur + 1)

/-- One step of the mining loop: dispatch a batch of `batchRem` lanes at
`cur`; afterwards either advance within the tier
(`currentNonce += remaining`) or, when the tier is exhausted, move to the
next digit width whose base nonce is `10^(digits)`, the smallest value
with `digits + 1` digits. -/
def stepOrch (B : Nat) (st : OrchState) : OrchState :=
  let rem := batchRem B st
  if tierMax st.digits < st.cur + rem then ⟨st.digits + 1, 10 ^ st.digits⟩
  else ⟨st.digits, st.cur + rem⟩

/-- The orchestrator state before the `k`-th dispatched batch, starting
from state `st`. -/
def orchIter (B : Nat) (st : OrchState) (k : Nat) : OrchState := (stepOrch B)^[k] st

/-- The well-formedness invariant of the mining loop state: the tier is
at least one digit wide and the base nonce lies inside the tier's range
`[10^(digits-1), 10^digits - 1]`. -/
def OrchInv (st : OrchState) : Prop :=
  1 ≤ st.digits ∧ 10 ^ (st.digits - 1) ≤ st.cur ∧ st.cur ≤ tierMax st.digits

/-! ## Helper lemmas -/

theorem int_to_ascii_length (n w : Nat) : (int_to_ascii n w).length = w := by
  induction w generalizing n with
  | zero => rfl
  | succ w ih => simp [int_to_ascii, ih]

theorem writeBytes_cons_succ (b : Nat) (buf : List Nat) (off : Nat) (ds : List Nat) :
    writeBytes (b :: buf) (off + 1) ds = b :: writeBytes buf off ds := by
  induction ds generalizing b buf off with
  | nil => rfl
  | cons d ds ih =>
      show writeBytes (b :: List.set buf off d) (off + 1 + 1) ds =
        b :: writeBytes (List.set buf off d) (off + 1) ds
      exact ih b (List.set buf off d) (off + 1)

theorem writeBytes_eq (ds : List Nat) (buf : List Nat) (off : Nat)
    (h : off + ds.length ≤ buf.length) :
    writeBytes buf off ds = buf.take off ++ ds ++ buf.drop (off + ds.length) := by
  induction off generalizing buf ds with
  | zero =>
      induction ds generalizing buf with
      | nil => simp [writeBytes]
      | cons d ds ih =>
          cases buf with
          | nil => simp at h
          | cons b bs =>
              show writeBytes (d :: bs) 1 ds = (d :: ds) ++ List.drop (0 + (ds.length + 1)) (b :: bs)
              rw [writeBytes_cons_succ]
              have hlen : 0 + ds.length ≤ bs.length := by
                simp [List.length_cons] at h; omega
              rw [ih bs hlen]
              simp
  | succ off ih =>
      cases buf with
      | nil => simp at h
      | cons b bs =>
          rw [writeBytes_cons_succ]
          have hlen : off + ds.length ≤ bs.length := by
            simp [List.length_cons] at h; omega
          rw [ih ds bs hlen]
          simp [List.take_succ_cons, List.drop_succ_cons]
          have harith : off + 1 + ds.length = (off + ds.length) + 1 := by omega
          rw [harith, List.drop_succ_cons]

theorem uint_int32_roundtrip (x : Nat) (h : x < 2 ^ 32) :
    uintOfInt32 (int32OfUint32 x) = x := by
  simp only [uintOfInt32, int32OfUint32]
  split <;> omega

theorem and_mask32 (x : Nat) : x &&& 0xFFFFFFFF = x % 2 ^ 32 :=
  Nat.and_pow_two_sub_one_eq_mod x 32

theorem reconstruct_split (v : Nat) (h : v < u64) :
    reconstructBase (splitLow v) (splitHigh v) = v := by
  have hsplit : v / 2 ^ 32 < 2 ^ 32 := by
    have : v < 18446744073709551616 := h
    omega
  have hmod : v % 2 ^ 32 < 2 ^ 32 := Nat.mod_lt _ (by norm_num)
  have hhi : (v >>> 32) &&& 0xFFFFFFFF = v / 2 ^ 32 := by
    rw [and_mask32, Nat.shiftRight_eq_div_pow]
    exact Nat.mod_eq_of_lt hsplit
  have hlo : v &&& 0xFFFFFFFF = v % 2 ^ 32 := and_mask32 v
  rw [reconstructBase, splitLow, splitHigh, hhi, hlo,
    uint_int32_roundtrip _ hsplit, uint_int32_roundtrip _ hmod,
    Nat.shiftLeft_eq, Nat.mul_comm]
  rw [← Nat.mul_add_lt_is_or hmod (v / 2 ^ 32)]
  exact Nat.div_add_mod v (2 ^ 32)

/-! ## Claim theorems -/

/-- C4: the difficulty evaluator returns 256 on the all-zero 32-byte
digest; 0 whenever the first byte has its high bit set; contributes 8 per
leading zero byte and exactly the leading-zero count of the first
non-zero byte, stopping there; and counts planted single-bit patterns at
byte boundaries exactly. -/
theorem c4 :
    count_leading_zero_bits (List.replicate 32 0) = 256 ∧
    (∀ (b : Nat) (rest : List Nat), 128 ≤ b → b ≤ 255 →
      count_leading_zero_bits (b :: rest) = 0) ∧
    (∀ rest : List Nat,
      count_leading_zero_bits (0 :: rest) = 8 + count_leading_zero_bits rest) ∧
    (∀ (b : Nat) (rest : List Nat), b ≠ 0 →
      count_leading_zero_bits (b :: rest) = clzByte b) ∧
    (∀ k : Nat, k < 32 →
      count_leading_zero_bits (List.replicate k 0 ++ 128 :: List.replicate (31 - k) 0)
        = 8 * k) := by
  refine ⟨by decide, ?_, ?_, ?_, by decide⟩
  · intro b rest hb hb'
    have hball : ∀ b' : Nat, b' < 256 → 128 ≤ b' → clzByte b' = 0 := by decide
    have hne : b ≠ 0 := by omega
    simp [count_leading_zero_bits, hne]
    exact hball b (by omega) hb
  · intro rest
    simp [count_leading_zero_bits]
  · intro b rest hb
    simp [count_leading_zero_bits, hb]

/-- C4 witness: the theorem applied at the concrete digest
`0xC8` followed by 31 zero bytes. -/
theorem c4_witness :
    128 ≤ 200 ∧ 200 ≤ 255 ∧
    count_leading_zero_bits (200 :: List.replicate 31 0) = 0 :=
  ⟨by decide, by decide, c4.2.1 200 (List.replicate 31 0) (by decide) (by decide)⟩

/-- C8: substituting the zero-padded decimal rendering of a nonce into the
working buffer rewrites exactly the `w` bytes at `nonce_offset` and leaves
every other byte of the buffer unchanged (the result is the untouched
prefix, the digit string, and the untouched suffix), preserving the
buffer length. -/
theorem c8 (buf : List Nat) (off n w : Nat) (h : off + w ≤ buf.length) :
    writeBytes buf off (int_to_ascii n w) =
      buf.take off ++ int_to_ascii n w ++ buf.drop (off + w) ∧
    (writeBytes buf off (int_to_ascii n w)).length = buf.length ∧
    (int_to_ascii n w).length = w := by
  have hlen : (int_to_ascii n w).length = w := int_to_ascii_length n w
  have hle : off + (int_to_ascii n w).length ≤ buf.length := by rw [hlen]; exact h
  have heq := writeBytes_eq (int_to_ascii n w) buf off hle
  refine ⟨by rw [heq, hlen], ?_, hlen⟩
  rw [heq]
  simp [hlen]
  omega

/-- C8 witness: substituting `"00042"` (the 5-digit rendering of nonce 42)
at offset 2 of a concrete 10-byte buffer. -/
theorem c8_witness :
    writeBytes (List.replicate 10 65) 2 (int_to_ascii 42 5) =
      (List.replicate 10 65).take 2 ++ int_to_ascii 42 5 ++
        (List.replicate 10 65).drop 7 ∧
    (writeBytes (List.replicate 10 65) 2 (int_to_ascii 42 5)).length =
      (List.replicate 10 65).length ∧
    (int_to_ascii 42 5).length = 5 :=
  c8 (List.replicate 10 65) 2 42 5 (by decide)

/-- C10: splitting a 64-bit base nonce into 32-bit halves, passing each
half through a signed 32-bit kernel argument, and reconstructing it in
the kernel as `((ulong)(uint)high << 32) | (ulong)(uint)low` round-trips
exactly, so each lane's `ulong` nonce computation yields the true
`base_nonce + i`. -/
theorem c10 (v : Nat) (h : v < u64) :
    reconstructBase (splitLow v) (splitHigh v) = v ∧
    ∀ i : Nat, v + i < u64 →
      (reconstructBase (splitLow v) (splitHigh v) + i) % u64 = v + i := by
  refine ⟨reconstruct_split v h, ?_⟩
  intro i hi
  rw [reconstruct_split v h]
  exact Nat.mod_eq_of_lt hi

theorem maxNonceLoop_eq (d : Nat) : maxNonceLoop d = 10 ^ d % u64 := by
  induction d with
  | zero => rfl
  | succ d ih =>
      rw [maxNonceLoop, List.range_succ, List.foldl_append] at *
      rw [ih, List.foldl_cons, List.foldl_nil, Nat.mod_mul_mod, ← Nat.pow_succ]

theorem validate_iff (ser : List Nat → List Nat) (n d w : Nat) :
    validateNonce ser n d w = true ↔
      d ≤ count_leading_zero_bits (sha256_generic (ser (goZeroPad w n))) := by
  simp only [validateNonce, getID, nip13Check, nip13Difficulty, committedDifficulty]
  by_cases hd : d ≤ count_leading_zero_bits (sha256_generic (ser (goZeroPad w n)))
  · by_cases hd0 : d = 0 <;>
      simp [hd, hd0, Nat.not_lt.mpr hd]
  · simp [hd]

/-- C5: a lane whose derived nonce exceeds `10^digit_width - 1`, or whose
serialized buffer exceeds the 2048-byte private working buffer, or whose
digit width exceeds the 22-character ASCII maximum, reports "not found"
(`none` for the default kernel's flag write, `-1` for the poclbm-adapted
kernel's compact result) regardless of any digest outcome. -/
theorem c5 (buf : List Nat) (noff d base gid w : Nat)
    (hrange : base + gid < u64)
    (hcase : 10 ^ w - 1 < base + gid ∨ 2048 < buf.length ∨ 22 < w) :
    mine_nonce buf buf.length noff d base gid w = none ∧
    mine_nonce_poclbm buf buf.length noff d (splitLow base) (splitHigh base) gid w
      = -1 := by
  have hu : u64 = 18446744073709551616 := rfl
  have hbase : base < u64 := by omega
  have hnonce : (base + gid) % u64 = base + gid := Nat.mod_eq_of_lt hrange
  rcases hcase with h1 | h2 | h3
  · have hw : w < 20 := by
      by_contra hw'
      push_neg at hw'
      have h20 : (10:Nat) ^ 20 ≤ 10 ^ w := Nat.pow_le_pow_right (by norm_num) hw'
      have h20' : (10:Nat) ^ 20 = 100000000000000000000 := by norm_num
      omega
    have hlt : 10 ^ w < u64 := by
      have : (10:Nat) ^ w ≤ 10 ^ 19 := Nat.pow_le_pow_right (by norm_num) (by omega)
      have h19 : (10:Nat) ^ 19 = 10000000000000000000 := by norm_num
      omega
    have h1p : 1 ≤ 10 ^ w := Nat.one_le_pow _ _ (by norm_num)
    have hmax : (maxNonceLoop w + (u64 - 1)) % u64 = 10 ^ w - 1 := by
      rw [maxNonceLoop_eq, Nat.mod_eq_of_lt hlt]
      have harr : 10 ^ w + (u64 - 1) = u64 + (10 ^ w - 1) := by omega
      rw [harr, Nat.add_mod_left]
      exact Nat.mod_eq_of_lt (by omega)
    constructor
    · simp only [mine_nonce, hnonce, hmax]
      split_ifs <;> first | rfl | omega
    · have hw19 : w ≤ 19 := by omega
      simp only [mine_nonce_poclbm, reconstruct_split base hbase, hnonce, hmax,
        if_pos hw19]
      split_ifs <;> first | rfl | omega
  · constructor
    · simp only [mine_nonce, hnonce]
      split_ifs <;> first | rfl | omega
    · simp only [mine_nonce_poclbm, reconstruct_split base hbase, hnonce]
      split_ifs <;> first | rfl | omega
  · constructor
    · simp only [mine_nonce, hnonce]
      split_ifs <;> first | rfl | omega
    · simp only [mine_nonce_poclbm, reconstruct_split base hbase, hnonce]
      split_ifs <;> first | rfl | omega

/-- C5 witness: lane 0 of a batch whose base nonce 100000 already exceeds
the largest 5-digit value 99999 reports "not found" in both kernels. -/
theorem c5_witness :
    100000 + 0 < u64 ∧
    ((10:Nat) ^ 5 - 1 < 100000 + 0 ∨ 2048 < ([] : List Nat).length ∨ 22 < 5) ∧
    mine_nonce [] ([] : List Nat).length 0 0 100000 0 5 = none ∧
    mine_nonce_poclbm [] ([] : List Nat).length 0 0 (splitLow 100000) (splitHigh 100000)
      0 5 = -1 := by
  refine ⟨by decide, Or.inl (by decide), ?_⟩
  exact c5 [] 0 0 100000 0 5 (by decide) (Or.inl (by decide))

/-- C2: the harvest scan never accepts a candidate that fails host-side
re-validation; a lane-reported hit that fails re-validation is discarded
and the scan continues with the remaining lanes; and a "not found" lane
entry is skipped. -/
theorem c2 :
    (∀ (ser : List Nat → List Nat) (d w cur : Nat) (results : List Int)
        (n : Nat) (dg : List Nat),
      scanResults ser d w cur results = some (n, dg) →
      validateNonce ser n d w = true) ∧
    (∀ (ser : List Nat → List Nat) (d w cur : Nat) (idx : Int) (rest : List Int),
      0 ≤ idx → validateNonce ser (cur + idx.toNat) d w = false →
      scanResults ser d w cur (idx :: rest) = scanResults ser d w cur rest) ∧
    (∀ (ser : List Nat → List Nat) (d w cur : Nat) (idx : Int) (rest : List Int),
      idx < 0 → scanResults ser d w cur (idx :: rest) = scanResults ser d w cur rest) := by
  refine ⟨?_, ?_, ?_⟩
  · intro ser d w cur results
    induction results with
    | nil => intro n dg h; simp [scanResults] at h
    | cons idx rest ih =>
        intro n dg h
        by_cases hidx : 0 ≤ idx
        · rw [scanResults, if_pos hidx] at h
          cases hval : validateNonce ser (cur + idx.toNat) d w with
          | true =>
              rw [harvestAccept, if_pos hval] at h
              simp only [Option.some.injEq, Prod.mk.injEq] at h
              obtain ⟨⟨hn, -⟩, -⟩ := And.intro h trivial
              rw [← hn]
              exact hval
          | false =>
              rw [harvestAccept, if_neg (by simp [hval])] at h
              exact ih n dg h
        · rw [scanResults, if_neg hidx] at h
          exact ih n dg h
  · intro ser d w cur idx rest hidx hval
    rw [scanResults, if_pos hidx, harvestAccept, if_neg (by simp [hval])]
  · intro ser d w cur idx rest hidx
    rw [scanResults, if_neg (by omega)]

/-- C2 witness: a lane hit at index 0 whose candidate nonce 100 fails
re-validation at difficulty 5 is discarded, leaving the scan of the
remaining (empty) result list. -/
theorem c2_witness :
    ((0:Int) ≤ 0) ∧
    validateNonce (fun _ => []) (100 + (0:Int).toNat) 5 10 = false ∧
    scanResults (fun _ => []) 5 10 100 (0 :: []) = scanResults (fun _ => []) 5 10 100 [] :=
  ⟨le_refl 0, by decide, c2.2.1 (fun _ => []) 5 10 100 0 [] (le_refl 0) (by decide)⟩

/-- C1: an accepted candidate's digest is exactly the digest recomputed on
the host from the canonical serialization with the zero-padded nonce
substituted into the nonce tag, and it has at least the required number of
leading zero bits; moreover the host-side validator accepts a candidate
if and only if that recomputed digest's leading-zero-bit count meets the
threshold (the committed-difficulty tag check never rejects on its own). -/
theorem c1 :
    (∀ (ser : List Nat → List Nat) (n d w accN : Nat) (accD : List Nat),
      harvestAccept ser n d w = some (accN, accD) →
      accN = n ∧ accD = sha256_generic (ser (goZeroPad w accN)) ∧
        d ≤ count_leading_zero_bits accD) ∧
    (∀ (ser : List Nat → List Nat) (n d w : Nat),
      validateNonce ser n d w = true ↔
        d ≤ count_leading_zero_bits (sha256_generic (ser (goZeroPad w n)))) := by
  constructor
  · intro ser n d w accN accD h
    cases hval : validateNonce ser n d w with
    | false => rw [harvestAccept, if_neg (by simp [hval])] at h; cases h
    | true =>
        rw [harvestAccept, if_pos hval] at h
        simp only [Option.some.injEq, Prod.mk.injEq] at h
        obtain ⟨hn, hd⟩ := h
        subst hn
        subst hd
        exact ⟨rfl, rfl, (validate_iff ser n d w).mp hval⟩
  · exact validate_iff

/-- C1 witness: at difficulty 0 a candidate always validates; the accepted
digest is the host-recomputed digest of the serialization (here the
identity serializer applied to the 2-digit rendering of nonce 7). -/
theorem c1_witness :
    7 = 7 ∧
    sha256_generic (goZeroPad 2 7) = sha256_generic ((fun s => s) (goZeroPad 2 7)) ∧
    0 ≤ count_leading_zero_bits (sha256_generic (goZeroPad 2 7)) :=
  c1.1 (fun s => s) 7 0 2 7 (sha256_generic (goZeroPad 2 7)) (by decide)

theorem processBlocks_eq_foldl (nc : Nat) (input : List Nat) (h : Hash8) :
    processBlocks h input nc = (takeChunks input nc).foldl process_block h := by
  induction nc generalizing input h with
  | zero => rfl
  | succ nc ih => simp [processBlocks, takeChunks, List.foldl_cons, ih]

theorem sha256_generic_eq_padBlocks (input : List Nat) :
    sha256_generic input = hashToBytes ((padBlocks input).foldl process_block initH) := by
  simp only [sha256_generic, padBlocks, List.foldl_append, ← processBlocks_eq_foldl]
  split_ifs with hr <;> simp [List.foldl_cons, List.foldl_nil]

/-- C6: the default kernel's padder emits, for the empty input, exactly
one 64-byte block made of the byte `0x80`, 55 zero bytes, and an 8-byte
big-endian encoding of bit length 0; for any 56-byte input it emits
exactly two blocks; and folding the compression function over the emitted
blocks is exactly the kernel's digest. -/
theorem c6 :
    padBlocks [] = [128 :: (List.replicate 55 0 ++ len8 0)] ∧
    len8 0 = List.replicate 8 0 ∧
    (∀ input : List Nat, input.length = 56 → (padBlocks input).length = 2) ∧
    (∀ input : List Nat, sha256_generic input =
      hashToBytes ((padBlocks input).foldl process_block initH)) := by
  refine ⟨by decide, by decide, ?_, sha256_generic_eq_padBlocks⟩
  intro input h
  simp [padBlocks, h, takeChunks]

/-- C6 witness: the padder applied to a concrete 56-byte input. -/
theorem c6_witness :
    (List.replicate 56 97).length = 56 ∧ (padBlocks (List.replicate 56 97)).length = 2 :=
  ⟨by decide, c6.2.2.1 (List.replicate 56 97) (by decide)⟩

/-- C7 (divergence witness): the default kernel's SHA-256 and the
poclbm-adapted kernel's SHA-256 agree on the empty input and on `"abc"`,
but produce different digests for a 55-byte input (55 repetitions of
`'a'`): the poclbm variant's block-count formula `(n + 9) / 64 + 1` emits
a spurious extra block exactly when `n % 64 = 55`. -/
theorem c7_divergence :
    sha256_poclbm (List.replicate 55 97) ≠ sha256_generic (List.replicate 55 97) ∧
    sha256_poclbm [97, 98, 99] = sha256_generic [97, 98, 99] ∧
    sha256_poclbm [] = sha256_generic [] := by
  exact ⟨by decide, by decide, by decide⟩

theorem len8_length (x : Nat) : (len8 x).length = 8 := by simp [len8]

theorem hashToBytes_length (h : Hash8) : (hashToBytes h).length = 32 := by
  simp [hashToBytes, wordBytes]

theorem chunks64_nil : chunks64 [] = [] := by
  rw [chunks64]
  simp

theorem chunks64_append64 (l m : List Nat) (hl : l.length = 64) :
    chunks64 (l ++ m) = l :: chunks64 m := by
  have hne : l ++ m ≠ [] := by
    intro he
    have hlen := congrArg List.length he
    simp [hl] at hlen
  rw [chunks64, dif_neg hne, List.take_left' hl, List.drop_left' hl]

theorem chunks64_exact (l : List Nat) (hl : l.length = 64) : chunks64 l = [l] := by
  have hne : l ≠ [] := by
    intro he
    rw [he] at hl
    simp at hl
  rw [chunks64, dif_neg hne, List.take_of_length_le (le_of_eq hl),
    List.drop_eq_nil_of_le (le_of_eq hl), chunks64_nil]

theorem foldl_chunks_peel (nc : Nat) (input S : List Nat) (h : Hash8)
    (hle : 64 * nc ≤ input.length) :
    (chunks64 (input ++ S)).foldl process_block h =
      (chunks64 (input.drop (64 * nc) ++ S)).foldl process_block
        (processBlocks h input nc) := by
  induction nc generalizing input h with
  | zero => simp [processBlocks]
  | succ nc ih =>
      have h64le : 64 ≤ input.length := by omega
      have htk : (input.take 64).length = 64 := by
        simp [List.length_take]
        omega
      have hdroplen : 64 * nc ≤ (input.drop 64).length := by
        simp [List.length_drop]
        omega
      calc (chunks64 (input ++ S)).foldl process_block h
          = (chunks64 (input.take 64 ++ (input.drop 64 ++ S))).foldl process_block h := by
            rw [← List.append_assoc, List.take_append_drop]
        _ = (chunks64 (input.drop 64 ++ S)).foldl process_block
              (process_block h (input.take 64)) := by
            rw [chunks64_append64 _ _ htk, List.foldl_cons]
        _ = (chunks64 ((input.drop 64).drop (64 * nc) ++ S)).foldl process_block
              (processBlocks (process_block h (input.take 64)) (input.drop 64) nc) :=
            ih (input.drop 64) (process_block h (input.take 64)) hdroplen
        _ = (chunks64 (input.drop (64 * (nc + 1)) ++ S)).foldl process_block
              (processBlocks h input (nc + 1)) := by
            rw [List.drop_drop]
            have harith : 64 + 64 * nc = 64 * (nc + 1) := by ring
            rw [harith]
            rfl

theorem sha256_generic_eq_spec (input : List Nat) :
    sha256_generic input = sha256spec input := by
  have hmul : 64 * (input.length / 64) ≤ input.length := by
    have hd := Nat.div_mul_le_self input.length 64
    omega
  have hdm := Nat.div_add_mod input.length 64
  have htail : (input.drop (64 * (input.length / 64))).length = input.length % 64 := by
    simp [List.length_drop]
    omega
  have hmlt : input.length % 64 < 64 := Nat.mod_lt _ (by norm_num)
  simp only [sha256spec, padSpec]
  rw [foldl_chunks_peel (input.length / 64) input _ initH hmul]
  by_cases hcase : input.length % 64 < 56
  · have hz : (119 - input.length % 64) % 64 = 55 - input.length % 64 := by omega
    rw [hz]
    have hblock : (input.drop (64 * (input.length / 64)) ++
        128 :: (List.replicate (55 - input.length % 64) 0 ++
          len8 (input.length * 8))).length = 64 := by
      simp [htail, len8_length]
      omega
    rw [chunks64_exact _ hblock, List.foldl_cons, List.foldl_nil]
    simp only [sha256_generic]
    rw [if_pos hcase]
  · have hz : (119 - input.length % 64) % 64 = 119 - input.length % 64 := by omega
    rw [hz]
    have hsplitrep : List.replicate (119 - input.length % 64) (0:Nat) =
        List.replicate (63 - input.length % 64) 0 ++ List.replicate 56 0 := by
      rw [← List.replicate_add]
      congr 1
      omega
    rw [hsplitrep]
    have hassoc : input.drop (64 * (input.length / 64)) ++
        128 :: ((List.replicate (63 - input.length % 64) 0 ++ List.replicate 56 0) ++
          len8 (input.length * 8)) =
        (input.drop (64 * (input.length / 64)) ++
          128 :: List.replicate (63 - input.length % 64) 0) ++
        (List.replicate 56 0 ++ len8 (input.length * 8)) := by
      simp [List.append_assoc, List.cons_append]
    rw [hassoc]
    have hb1 : (input.drop (64 * (input.length / 64)) ++
        128 :: List.replicate (63 - input.length % 64) 0).length = 64 := by
      simp [htail]
      omega
    have hb2 : (List.replicate 56 (0:Nat) ++ len8 (input.length * 8)).length = 64 := by
      simp [len8_length]
    rw [chunks64_append64 _ _ hb1, chunks64_exact _ hb2, List.foldl_cons,
      List.foldl_cons, List.foldl_nil]
    simp only [sha256_generic]
    rw [if_neg hcase]

/-- C3: the default kernel's digest function always produces exactly 32
bytes; it equals the reference SHA-256 (Merkle-Damgard iteration of the
compression primitive over the flat-padded message from the standard
initial vector, final state serialized big-endian per word) on every byte
sequence; and it matches the reference test vectors for the empty input,
`"abc"`, and the 56-byte two-block input
`"abcdbcdecdefdefgefghfghighijhijkijkljklmklmnlmnomnopnopq"`. -/
theorem c3 :
    (∀ b : List Nat, (sha256_generic b).length = 32) ∧
    (∀ b : List Nat, sha256_generic b = sha256spec b) ∧
    sha256_generic [] =
      [0xe3, 0xb0, 0xc4, 0x42, 0x98, 0xfc, 0x1c, 0x14,
       0x9a, 0xfb, 0xf4, 0xc8, 0x99, 0x6f, 0xb9, 0x24,
       0x27, 0xae, 0x41, 0xe4, 0x64, 0x9b, 0x93, 0x4c,
       0xa4, 0x95, 0x99, 0x1b, 0x78, 0x52, 0xb8, 0x55] ∧
    sha256_generic [97, 98, 99] =
      [0xba, 0x78, 0x16, 0xbf, 0x8f, 0x01, 0xcf, 0xea,
       0x41, 0x41, 0x40, 0xde, 0x5d, 0xae, 0x22, 0x23,
       0xb0, 0x03, 0x61, 0xa3, 0x96, 0x17, 0x7a, 0x9c,
       0xb4, 0x10, 0xff, 0x61, 0xf2, 0x00, 0x15, 0xad] ∧
    sha256_generic
      [97, 98, 99, 100, 98, 99, 100, 101, 99, 100, 101, 102, 100, 101, 102, 103,
       101, 102, 103, 104, 102, 103, 104, 105, 103, 104, 105, 106, 104, 105, 106, 107,
       105, 106, 107, 108, 106, 107, 108, 109, 107, 108, 109, 110, 108, 109, 110, 111,
       109, 110, 111, 112, 110, 111, 112, 113] =
      [0x24, 0x8d, 0x6a, 0x61, 0xd2, 0x06, 0x38, 0xb8,
       0xe5, 0xc0, 0x26, 0x93, 0x0c, 0x3e, 0x60, 0x39,
       0xa3, 0x3c, 0xe4, 0x59, 0x64, 0xff, 0x21, 0x67,
       0xf6, 0xec, 0xed, 0xd4, 0x19, 0xdb, 0x06, 0xc1] := by
  refine ⟨?_, sha256_generic_eq_spec, by decide, by decide, by decide⟩
  intro b
  exact hashToBytes_length _

theorem orch_rem_pos (B : Nat) (st : OrchState) (hB : 1 ≤ B) :
    1 ≤ batchRem B st := by
  simp only [batchRem, Nat.le_min]
  omega

theorem orch_next_cur (B : Nat) (st : OrchState) (hinv : OrchInv st) :
    (stepOrch B st).cur = st.cur + batchRem B st := by
  obtain ⟨-, -, hcur⟩ := hinv
  have hremle : batchRem B st ≤ tierMax st.digits - st.cur + 1 := Nat.min_le_right _ _
  have h1p : 1 ≤ 10 ^ st.digits := Nat.one_le_pow _ _ (by norm_num)
  simp only [stepOrch]
  split_ifs with htr
  · show 10 ^ st.digits = st.cur + batchRem B st
    have hdt : tierMax st.digits = 10 ^ st.digits - 1 := rfl
    omega
  · rfl

theorem orch_inv_step (B : Nat) (st : OrchState) (hinv : OrchInv st) :
    OrchInv (stepOrch B st) := by
  obtain ⟨hd, hlo, hcur⟩ := hinv
  have h1p : 1 ≤ 10 ^ st.digits := Nat.one_le_pow _ _ (by norm_num)
  have hsucc : 10 ^ (st.digits + 1) = 10 * 10 ^ st.digits := by
    rw [Nat.pow_succ]
    ring
  simp only [stepOrch]
  split_ifs with htr
  · refine ⟨show 1 ≤ st.digits + 1 by omega, ?_, ?_⟩
    · show 10 ^ (st.digits + 1 - 1) ≤ 10 ^ st.digits
      simp
    · show 10 ^ st.digits ≤ tierMax (st.digits + 1)
      have hdt : tierMax (st.digits + 1) = 10 ^ (st.digits + 1) - 1 := rfl
      omega
  · refine ⟨hd, ?_, ?_⟩
    · show 10 ^ (st.digits - 1) ≤ st.cur + batchRem B st
      omega
    · show st.cur + batchRem B st ≤ tierMax st.digits
      omega

theorem orch_inv_iter (B : Nat) (st : OrchState) (hinv : OrchInv st) (k : Nat) :
    OrchInv (orchIter B st k) := by
  induction k with
  | zero => exact hinv
  | succ k ih =>
      rw [orchIter, Function.iterate_succ_apply']
      exact orch_inv_step B _ ih

theorem orch_iter_cur (B : Nat) (st : OrchState) (hinv : OrchInv st) (k : Nat) :
    (orchIter B st (k + 1)).cur =
      (orchIter B st k).cur + batchRem B (orchIter B st k) := by
  rw [orchIter, Function.iterate_succ_apply']
  exact orch_next_cur B _ (orch_inv_iter B st hinv k)

/-- C9: starting any tier at its smallest `w0`-digit value, every batch
dispatches at least one lane; the next batch's base nonce is exactly the
previous base plus the dispatched lane count (so consecutive ranges are
adjacent); any earlier batch's half-open range ends at or before any
later batch's base (ranges are strictly increasing and pairwise
disjoint); every base stays inside its tier `[10^(digits-1), 10^digits - 1]`;
and a tier transition happens exactly at `10^digits`, where the next tier
begins. -/
theorem c9 (B w0 : Nat) (hB : 1 ≤ B) (hw : 1 ≤ w0) :
    (∀ k, OrchInv (orchIter B ⟨w0, 10 ^ (w0 - 1)⟩ k)) ∧
    (∀ k, 1 ≤ batchRem B (orchIter B ⟨w0, 10 ^ (w0 - 1)⟩ k)) ∧
    (∀ k, (orchIter B ⟨w0, 10 ^ (w0 - 1)⟩ (k + 1)).cur =
      (orchIter B ⟨w0, 10 ^ (w0 - 1)⟩ k).cur +
        batchRem B (orchIter B ⟨w0, 10 ^ (w0 - 1)⟩ k)) ∧
    (∀ k l, k < l →
      (orchIter B ⟨w0, 10 ^ (w0 - 1)⟩ k).cur +
          batchRem B (orchIter B ⟨w0, 10 ^ (w0 - 1)⟩ k) ≤
        (orchIter B ⟨w0, 10 ^ (w0 - 1)⟩ l).cur) ∧
    (∀ k, tierMax (orchIter B ⟨w0, 10 ^ (w0 - 1)⟩ k).digits <
        (orchIter B ⟨w0, 10 ^ (w0 - 1)⟩ k).cur +
          batchRem B (orchIter B ⟨w0, 10 ^ (w0 - 1)⟩ k) →
      (orchIter B ⟨w0, 10 ^ (w0 - 1)⟩ k).cur +
          batchRem B (orchIter B ⟨w0, 10 ^ (w0 - 1)⟩ k) =
        10 ^ (orchIter B ⟨w0, 10 ^ (w0 - 1)⟩ k).digits ∧
      orchIter B ⟨w0, 10 ^ (w0 - 1)⟩ (k + 1) =
        ⟨(orchIter B ⟨w0, 10 ^ (w0 - 1)⟩ k).digits + 1,
          10 ^ (orchIter B ⟨w0, 10 ^ (w0 - 1)⟩ k).digits⟩) := by
  have hinv0 : OrchInv ⟨w0, 10 ^ (w0 - 1)⟩ := by
    refine ⟨hw, le_refl _, ?_⟩
    have hsucc : 10 ^ w0 = 10 * 10 ^ (w0 - 1) := by
      conv_lhs => rw [show w0 = (w0 - 1) + 1 by omega]
      rw [Nat.pow_succ]
      ring
    have h1p : 1 ≤ 10 ^ (w0 - 1) := Nat.one_le_pow _ _ (by norm_num)
    simp only [tierMax]
    omega
  have hinv := orch_inv_iter B ⟨w0, 10 ^ (w0 - 1)⟩ hinv0
  have hcur := orch_iter_cur B ⟨w0, 10 ^ (w0 - 1)⟩ hinv0
  refine ⟨hinv, fun k => orch_rem_pos B _ hB, hcur, ?_, ?_⟩
  · intro k l hkl
    induction l with
    | zero => omega
    | succ l ih =>
        rcases Nat.lt_succ_iff_lt_or_eq.mp hkl with hlt | heq
        · have hle := ih hlt
          have := orch_rem_pos B (orchIter B ⟨w0, 10 ^ (w0 - 1)⟩ l) hB
          rw [hcur l]
          omega
        · subst heq
          rw [hcur k]
  · intro k htr
    have hik := hinv k
    obtain ⟨-, -, hcurle⟩ := hik
    have hremle : batchRem B (orchIter B ⟨w0, 10 ^ (w0 - 1)⟩ k) ≤
        tierMax (orchIter B ⟨w0, 10 ^ (w0 - 1)⟩ k).digits -
          (orchIter B ⟨w0, 10 ^ (w0 - 1)⟩ k).cur + 1 := Nat.min_le_right _ _
    have h1p : 1 ≤ 10 ^ (orchIter B ⟨w0, 10 ^ (w0 - 1)⟩ k).digits :=
      Nat.one_le_pow _ _ (by norm_num)
    have hexact : (orchIter B ⟨w0, 10 ^ (w0 - 1)⟩ k).cur +
        batchRem B (orchIter B ⟨w0, 10 ^ (w0 - 1)⟩ k) =
        10 ^ (orchIter B ⟨w0, 10 ^ (w0 - 1)⟩ k).digits := by
      simp only [tierMax] at *
      omega
    refine ⟨hexact, ?_⟩
    rw [orchIter, Function.iterate_succ_apply']
    show stepOrch B (orchIter B ⟨w0, 10 ^ (w0 - 1)⟩ k) = _
    simp only [stepOrch]
    rw [if_pos htr]

/-- C9 witness: with batch size 10 starting at the 5-digit tier, the
first batch dispatches at least one lane and the second batch's base is
the first base plus its lane count. -/
theorem c9_witness :
    OrchInv (orchIter 10 ⟨5, 10 ^ (5 - 1)⟩ 0) ∧
    1 ≤ batchRem 10 (orchIter 10 ⟨5, 10 ^ (5 - 1)⟩ 0) ∧
    (orchIter 10 ⟨5, 10 ^ (5 - 1)⟩ (0 + 1)).cur =
      (orchIter 10 ⟨5, 10 ^ (5 - 1)⟩ 0).cur +
        batchRem 10 (orchIter 10 ⟨5, 10 ^ (5 - 1)⟩ 0) ∧
    (orchIter 10 ⟨5, 10 ^ (5 - 1)⟩ 0).cur +
        batchRem 10 (orchIter 10 ⟨5, 10 ^ (5 - 1)⟩ 0) ≤
      (orchIter 10 ⟨5, 10 ^ (5 - 1)⟩ 1).cur := by
  have h := c9 10 5 (by decide) (by decide)
  exact ⟨h.1 0, h.2.1 0, h.2.2.1 0, h.2.2.2.1 0 1 (by decide)⟩

/-- C10 witness: the round trip at the concrete 41-bit base nonce
`2^40 + 277` with lane index 7. -/
theorem c10_witness :
    reconstructBase (splitLow 1099511628053) (splitHigh 1099511628053) = 1099511628053 ∧
    (reconstructBase (splitLow 1099511628053) (splitHigh 1099511628053) + 7) % u64 =
      1099511628053 + 7 := by
  have h := c10 1099511628053 (by decide)
  exact ⟨h.1, h.2 7 (by decide)⟩

end Nip13
